import Mathlib

/-!
# Runtime primitives of `src/runtime/io.cpp`

A shallow embedding of

* the mutable-cell primitives `lean_st_ref_get`, `lean_st_ref_take`,
  `lean_st_ref_set`, `lean_st_ref_swap` and `lean_st_ref_ptr_eq`, first as run
  by one thread with no concurrent access to the cell (an atomic `exchange` on
  the slot is then a read followed by a write), then with the exchange results
  of a get supplied by an environment, and as steps of several threads;
* the task primitives `lean_io_wait` and `lean_io_wait_any`;
* `lean_io_prim_handle_get_line` over a byte stream.

The `while (true)` loops are bounded by a fuel argument; a run that uses up its
fuel is reported as `Exec.spinning`.
-/

namespace Runtime

/-- Address of a heap object. -/
abbrev Addr := Nat

/-- A C `object *`: the null pointer, a boxed scalar `box(n)`, or the address
of a heap object. -/
inductive object_ptr where
  | nullptr
  | scalar (n : Nat)
  | heap (a : Addr)
  deriving DecidableEq, Repr

/-- Ownership class of a heap object. -/
inductive OwnClass where
  | exclusive
  | multithread
  | persistent
  deriving DecidableEq, Repr

/-- The heap as the Ref primitives see it: per object its ownership class and
reference count, and for a `lean_ref_object` its slot `m_value`. Addresses
below `size` are the allocated ones. -/
structure Heap where
  size : Nat
  cls : Addr → OwnClass
  rc : Addr → Int
  m_value : Addr → object_ptr

/-- An `IO` result object: `io_result_mk_ok(v)` or `io_result_mk_error(e)`. -/
inductive io_result where
  | ok (val : object_ptr)
  | error (err : object_ptr)
  deriving DecidableEq, Repr

/-- Outcome of running a primitive: it returned, it stopped at a failed
`lean_assert`, or its loop was still spinning when the fuel ran out. -/
inductive Exec (α : Type) where
  | ret (a : α)
  | assertion_violation
  | spinning

/-- File-level globals of `io.cpp` that the Ref primitives read. -/
structure Globals where
  g_io_error_nullptr_read : object_ptr
  deriving DecidableEq, Repr

/-- State of the globals before any initializer has run:
`static object * g_io_error_nullptr_read = nullptr;`. -/
def Globals.static_init : Globals := ⟨.nullptr⟩

/-- The effect of `initialize_io()` on `g_io_error_nullptr_read`: both lines
that would assign it are commented out in the source, so it is left as is. -/
def initialize_io (g : Globals) : Globals := g

/-- Modelled from the spec: `box` (declared outside the sources at hand) makes
an unboxed scalar, which is not a heap object. -/
def box (n : Nat) : object_ptr := .scalar n

/-- Modelled from the spec: `io_result_mk_ok` (declared outside the sources at
hand) wraps a value in a success result. -/
def io_result_mk_ok (v : object_ptr) : io_result := .ok v

/-- Modelled from the spec: `io_result_mk_error(object*)` (declared outside the
sources at hand) wraps an error object in a failure result. -/
def io_result_mk_error (e : object_ptr) : io_result := .error e

/-- Modelled from the spec: `lean_is_mt` (declared outside the sources at hand)
tests for the shared-multithread ownership class. -/
def lean_is_mt (o : Addr) (h : Heap) : Bool := decide (h.cls o = .multithread)

/-- Modelled from the spec: `lean_is_persistent` (declared outside the sources
at hand) tests for the persistent ownership class. -/
def lean_is_persistent (o : Addr) (h : Heap) : Bool := decide (h.cls o = .persistent)

/-- Modelled from the spec: `inc` (declared outside the sources at hand) adds
one reference to a heap object; null and scalars carry no reference count. -/
def inc (o : object_ptr) (h : Heap) : Heap :=
  match o with
  | .heap a => { h with rc := Function.update h.rc a (h.rc a + 1) }
  | _ => h

/-- Modelled from the spec: `dec` (declared outside the sources at hand)
releases one reference to a heap object; reclaiming an object whose count
reaches zero is the allocator's business and is not modelled. -/
def dec (o : object_ptr) (h : Heap) : Heap :=
  match o with
  | .heap a => { h with rc := Function.update h.rc a (h.rc a - 1) }
  | _ => h

/-- Worklist of `mark_mt`: an exclusive object is escalated and the walk goes
on into what it owns (the occupant of its slot); it stops at null, at a scalar
and at an object that is already escalated. -/
def mark_mt_walk : Nat → object_ptr → Heap → Heap
  | 0, _, h => h
  | fuel + 1, .heap a, h =>
      if h.cls a = .exclusive then
        mark_mt_walk fuel (h.m_value a) { h with cls := Function.update h.cls a .multithread }
      else h
  | _ + 1, _, h => h

/-- Modelled from the spec: `mark_mt` (declared outside the sources at hand)
idempotently escalates `o` and everything it transitively owns to
shared-multithread, and is a no-op if `o` is already escalated. Every step of
the walk but the last escalates one more allocated object, so `size + 1` steps
are enough. -/
def mark_mt (o : object_ptr) (h : Heap) : Heap := mark_mt_walk (h.size + 1) o h

/-- The slot of a cell, `lean_to_ref(ref)->m_value`, overwritten by a plain
store. -/
def store_m_value (ref : Addr) (v : object_ptr) (h : Heap) : Heap :=
  { h with m_value := Function.update h.m_value ref v }

/-- The call `val_addr->exchange(v)` on the slot of `ref` when no other thread
touches the cell: the old occupant is returned and `v` is stored. -/
def exchange (ref : Addr) (v : object_ptr) (h : Heap) : object_ptr × Heap :=
  (h.m_value ref, store_m_value ref v h)

/-- Source: `ref_maybe_mt`, `lean_is_mt(ref) || lean_is_persistent(ref)`. -/
def ref_maybe_mt (ref : Addr) (h : Heap) : Bool :=
  lean_is_mt ref h || lean_is_persistent ref h

/-- The `while (true)` loop of the slow path of `lean_st_ref_get`. -/
def lean_st_ref_get_loop (ref : Addr) : Nat → Heap → Exec (io_result × Heap)
  | 0, _ => .spinning
  | fuel + 1, h =>
      let val := (exchange ref .nullptr h).1
      let h1 := (exchange ref .nullptr h).2
      if val ≠ .nullptr then
        let h2 := inc val h1
        let tmp := (exchange ref val h2).1
        let h3 := (exchange ref val h2).2
        let h4 := if tmp ≠ .nullptr then dec tmp h3 else h3
        .ret (io_result_mk_ok val, h4)
      else lean_st_ref_get_loop ref fuel h1

/-- Source: `lean_st_ref_get`. `checked` says whether `lean_assert` is compiled
in (the macro is declared outside the sources at hand). -/
def lean_st_ref_get (checked : Bool) (fuel : Nat) (ref : Addr) (h : Heap) :
    Exec (io_result × Heap) :=
  if ref_maybe_mt ref h then
    lean_st_ref_get_loop ref fuel h
  else
    let val := h.m_value ref
    if checked ∧ val = .nullptr then .assertion_violation
    else .ret (io_result_mk_ok val, inc val h)

/-- The `while (true)` loop of the slow path of `lean_st_ref_take`. -/
def lean_st_ref_take_loop (ref : Addr) : Nat → Heap → Exec (io_result × Heap)
  | 0, _ => .spinning
  | fuel + 1, h =>
      let val := (exchange ref .nullptr h).1
      let h1 := (exchange ref .nullptr h).2
      if val ≠ .nullptr then .ret (io_result_mk_ok val, h1)
      else lean_st_ref_take_loop ref fuel h1

/-- Source: `lean_st_ref_take`. -/
def lean_st_ref_take (checked : Bool) (fuel : Nat) (ref : Addr) (h : Heap) :
    Exec (io_result × Heap) :=
  if ref_maybe_mt ref h then
    lean_st_ref_take_loop ref fuel h
  else
    let val := h.m_value ref
    if checked ∧ val = .nullptr then .assertion_violation
    else .ret (io_result_mk_ok val, store_m_value ref .nullptr h)

/-- Source: `lean_st_ref_set`. -/
def lean_st_ref_set (ref : Addr) (a : object_ptr) (h : Heap) : io_result × Heap :=
  if ref_maybe_mt ref h then
    let h1 := mark_mt a h
    let old_a := (exchange ref a h1).1
    let h2 := (exchange ref a h1).2
    let h3 := if old_a ≠ .nullptr then dec old_a h2 else h2
    (io_result_mk_ok (box 0), h3)
  else
    let h1 := if h.m_value ref ≠ .nullptr then dec (h.m_value ref) h else h
    (io_result_mk_ok (box 0), store_m_value ref a h1)

/-- The `while (true)` loop of the slow path of `lean_st_ref_swap`. -/
def lean_st_ref_swap_loop (ref : Addr) (a : object_ptr) : Nat → Heap → Exec (io_result × Heap)
  | 0, _ => .spinning
  | fuel + 1, h =>
      let old_a := (exchange ref a h).1
      let h1 := (exchange ref a h).2
      if old_a ≠ .nullptr then .ret (io_result_mk_ok old_a, h1)
      else lean_st_ref_swap_loop ref a fuel h1

/-- Source: `lean_st_ref_swap`. -/
def lean_st_ref_swap (g : Globals) (fuel : Nat) (ref : Addr) (a : object_ptr) (h : Heap) :
    Exec (io_result × Heap) :=
  if ref_maybe_mt ref h then
    lean_st_ref_swap_loop ref a fuel (mark_mt a h)
  else
    let old_a := h.m_value ref
    if old_a = .nullptr then .ret (io_result_mk_error g.g_io_error_nullptr_read, h)
    else .ret (io_result_mk_ok old_a, store_m_value ref a h)

/-- Source: `lean_st_ref_ptr_eq`. -/
def lean_st_ref_ptr_eq (ref1 ref2 : Addr) (h : Heap) : io_result :=
  let r : Bool := decide (h.m_value ref1 = h.m_value ref2)
  io_result_mk_ok (box (if r then 1 else 0))

/-- A small heap for concrete runs: four objects, each with one reference;
object 0 is a cell of class `k` whose slot holds `v`, object 1 is an exclusive
cell holding object 3, objects 2 and 3 are exclusive and alike in every
attribute. -/
def sample_heap (k : OwnClass) (v : object_ptr) : Heap where
  size := 4
  cls := fun a => if a = 0 then k else .exclusive
  rc := fun _ => 1
  m_value := fun a => if a = 0 then v else if a = 1 then .heap 3 else .nullptr

/-! ## Slow-path `lean_st_ref_get` against an environment -/

/-- The slow path of `lean_st_ref_get` when other threads may touch the cell:
the value each `exchange` yields is supplied by the environment, one list entry
per exchange, in order. The result carries the entries the call did not use. A
call that needs a further exchange result when the list is used up has not
returned yet (`spinning`). -/
def lean_st_ref_get_env (ref : Addr) :
    List object_ptr → Heap → Exec (io_result × Heap × List object_ptr)
  | [], _ => .spinning
  | val :: env, h =>
      let h1 := store_m_value ref .nullptr h
      if val ≠ .nullptr then
        match env with
        | [] => .spinning
        | tmp :: rest =>
            let h2 := inc val h1
            let h3 := store_m_value ref val h2
            let h4 := if tmp ≠ .nullptr then dec tmp h3 else h3
            .ret (io_result_mk_ok val, h4, rest)
      else lean_st_ref_get_env ref env h1

/-! ## Threads running get/set loops on one cell -/

/-- Where a thread stands: between two calls, inside the loop of
`lean_st_ref_get` before the `exchange(nullptr)`, or after `inc(val)` and before
the swap-back `exchange(val)`. -/
inductive ThreadPc where
  | idle
  | get_loop
  | get_swap_back (val : object_ptr)
  deriving DecidableEq, Repr

/-- One atomic exchange by one thread: `get t` is the next exchange of the
call of `lean_st_ref_get` that thread `t` is in (starting a call if it is
idle), `set t a` is the exchange of a call `lean_st_ref_set(c, a)` by `t`. -/
inductive Event where
  | get (t : Nat)
  | set (t : Nat) (a : object_ptr)
  deriving DecidableEq, Repr

/-- The threads and the heap they share, with a log of the values that
completed calls of `lean_st_ref_get` have returned (latest first) and of the
values that were passed to `lean_st_ref_set`. -/
structure System where
  heap : Heap
  pc : Nat → ThreadPc
  returned : List object_ptr
  stored : List object_ptr

/-- All threads idle, nothing returned or stored yet. -/
def System.init (h : Heap) : System :=
  { heap := h, pc := fun _ => .idle, returned := [], stored := [] }

/-- The next exchange of the slow path of `lean_st_ref_get` by thread `t`,
together with the code that follows it up to the next exchange or the return. -/
def get_step (c : Addr) (t : Nat) (s : System) : System :=
  match s.pc t with
  | .get_swap_back val =>
      let tmp := (exchange c val s.heap).1
      let h3 := (exchange c val s.heap).2
      let h4 := if tmp ≠ .nullptr then dec tmp h3 else h3
      { s with heap := h4, pc := Function.update s.pc t .idle, returned := val :: s.returned }
  | _ =>
      let val := (exchange c .nullptr s.heap).1
      let h1 := (exchange c .nullptr s.heap).2
      if val ≠ .nullptr then
        { s with heap := inc val h1, pc := Function.update s.pc t (.get_swap_back val) }
      else
        { s with heap := h1, pc := Function.update s.pc t .get_loop }

/-- A call `lean_st_ref_set(c, a)` by an idle thread `t`: it holds one
exchange, so the whole call is one step. A thread inside a get cannot start
it. -/
def set_step (c : Addr) (t : Nat) (a : object_ptr) (s : System) : System :=
  match s.pc t with
  | .idle => { s with heap := (lean_st_ref_set c a s.heap).2, stored := a :: s.stored }
  | _ => s

/-- One step of the system of `n` threads on cell `c`; an event of a thread
that does not exist changes nothing. -/
def step (n : Nat) (c : Addr) (s : System) (e : Event) : System :=
  match e with
  | .get t => if t < n then get_step c t s else s
  | .set t a => if t < n then set_step c t a s else s

/-- The state reached from `s` by a schedule of events. -/
def run (n : Nat) (c : Addr) (s : System) (es : List Event) : System :=
  es.foldl (step n c) s

/-- A value that was the initial occupant `v0` or was passed to some
`lean_st_ref_set` so far. -/
def System.known (v0 : object_ptr) (s : System) (x : object_ptr) : Prop :=
  x = v0 ∨ x ∈ s.stored

/-- What holds in every state the threads can reach: the cell is still
multithread or persistent; the slot is empty or holds a known value; the value
a thread is about to swap back is non-null and known; and so is every value a
get has returned. -/
structure System.inv (c : Addr) (v0 : object_ptr) (s : System) : Prop where
  cell_mt : ref_maybe_mt c s.heap = true
  slot : s.heap.m_value c = .nullptr ∨ s.known v0 (s.heap.m_value c)
  held : ∀ t val, s.pc t = .get_swap_back val → val ≠ .nullptr ∧ s.known v0 val
  rets : ∀ r ∈ s.returned, r ≠ .nullptr ∧ s.known v0 r

/-! ## Threads running set and swap on one cell, split at the exchange -/

/-- Where a writing thread stands: between two calls, inside
`lean_st_ref_set(c, a)` after `mark_mt(a)` and before `exchange(a)`, or inside
`lean_st_ref_swap(c, a)` after `mark_mt(a)` and before the next `exchange(a)`
of its loop. -/
inductive WriterPc where
  | idle
  | set_marked (a : object_ptr)
  | swap_marked (a : object_ptr)
  deriving DecidableEq, Repr

/-- The value a thread is about to exchange into the slot, if any. -/
def WriterPc.pending : WriterPc → Option object_ptr
  | .idle => none
  | .set_marked a => some a
  | .swap_marked a => some a

/-- One step of one writing thread: `call_set t a` and `call_swap t a` enter the
slow path of `lean_st_ref_set` or `lean_st_ref_swap` and run it up to its
exchange, that is, they run `mark_mt(a)`; `exchange t` is the next exchange of
the call thread `t` is in, with the code that follows it. -/
inductive WriterEvent where
  | call_set (t : Nat) (a : object_ptr)
  | call_swap (t : Nat) (a : object_ptr)
  | exchange (t : Nat)
  deriving DecidableEq, Repr

/-- The writing threads and the heap they share. -/
structure Writers where
  heap : Heap
  pc : Nat → WriterPc

/-- All threads idle. -/
def Writers.init (h : Heap) : Writers := { heap := h, pc := fun _ => .idle }

/-- The exchange of the call thread `t` is in, on the slow path. In
`lean_st_ref_set` the old occupant is released and the call returns. In
`lean_st_ref_swap` the call returns if the old occupant is non-null and goes
round its loop otherwise. -/
def writer_exchange (c : Addr) (t : Nat) (s : Writers) : Writers :=
  match s.pc t with
  | .idle => s
  | .set_marked a =>
      let old_a := (exchange c a s.heap).1
      let h2 := (exchange c a s.heap).2
      let h3 := if old_a ≠ .nullptr then dec old_a h2 else h2
      { heap := h3, pc := Function.update s.pc t .idle }
  | .swap_marked a =>
      let old_a := (exchange c a s.heap).1
      let h1 := (exchange c a s.heap).2
      if old_a ≠ .nullptr then { heap := h1, pc := Function.update s.pc t .idle }
      else { heap := h1, pc := Function.update s.pc t (.swap_marked a) }

/-- One step of `n` writing threads on the multithread or persistent cell `c`.
Only an idle thread can enter a call, and an event of a thread that does not
exist changes nothing. -/
def writer_step (n : Nat) (c : Addr) (s : Writers) (e : WriterEvent) : Writers :=
  match e with
  | .call_set t a =>
      if t < n ∧ s.pc t = .idle then
        { heap := mark_mt a s.heap, pc := Function.update s.pc t (.set_marked a) }
      else s
  | .call_swap t a =>
      if t < n ∧ s.pc t = .idle then
        { heap := mark_mt a s.heap, pc := Function.update s.pc t (.swap_marked a) }
      else s
  | .exchange t => if t < n then writer_exchange c t s else s

/-- The state the writing threads reach from `s` by a schedule of events. -/
def run_writers (n : Nat) (c : Addr) (s : Writers) (es : List WriterEvent) : Writers :=
  es.foldl (writer_step n c) s

/-- What holds in every state the writing threads can reach: the cell is still
multithread or persistent; a heap object in the slot is escalated; and a heap
object that a thread is about to exchange into the slot is escalated
already. -/
structure Writers.inv (c : Addr) (s : Writers) : Prop where
  cell_mt : ref_maybe_mt c s.heap = true
  slot_esc : ∀ x, s.heap.m_value c = .heap x → s.heap.cls x ≠ .exclusive
  pending_esc : ∀ t x, (s.pc t).pending = some (.heap x) → s.heap.cls x ≠ .exclusive

/-! ## Tasks -/

/-- State of a task. -/
inductive TaskState where
  | waiting
  | running
  | finished
  | cancelled
  deriving DecidableEq, Repr

/-- Modelled from the spec: the task objects, which are declared outside the
sources at hand: each has a state and a result object, which is valid only
when the task is finished. -/
structure Tasks where
  state : Addr → TaskState
  m_value : Addr → object_ptr

/-- A task that reached `finished` or `cancelled`. -/
def Tasks.resolved (ts : Tasks) (t : Addr) : Bool :=
  decide (ts.state t = .finished) || decide (ts.state t = .cancelled)

/-- Modelled from the spec: `lean_io_wait_any_core` (declared outside the
sources at hand) blocks until one task of the list is finished or cancelled and
returns that task, the first such in list order; `none` stands for a caller
that is still blocked. -/
def lean_io_wait_any_core (ts : Tasks) (task_list : List Addr) : Option Addr :=
  task_list.find? (fun t => ts.resolved t)

/-- Modelled from the spec: `lean_task_get` (declared outside the sources at
hand) blocks until the task is finished or cancelled and returns its result
object; `none` stands for a caller that is still blocked. -/
def lean_task_get (ts : Tasks) (t : Addr) : Option object_ptr :=
  if ts.resolved t then some (ts.m_value t) else none

/-- Modelled from the spec: `lean_task_get_own` (declared outside the sources
at hand) is `lean_task_get` for a caller that owns its reference to the task;
reference counts are left out here. -/
def lean_task_get_own (ts : Tasks) (t : Addr) : Option object_ptr :=
  lean_task_get ts t

/-- Source: `lean_io_wait`; `none` while the caller is blocked. -/
def lean_io_wait (ts : Tasks) (t : Addr) : Option io_result :=
  match lean_task_get_own ts t with
  | some v => some (io_result_mk_ok v)
  | none => none

/-- Source: `lean_io_wait_any`; `none` while the caller is blocked. -/
def lean_io_wait_any (ts : Tasks) (task_list : List Addr) (h : Heap) :
    Option (io_result × Heap) :=
  match lean_io_wait_any_core ts task_list with
  | none => none
  | some t =>
      match lean_task_get ts t with
      | none => none
      | some v => some (io_result_mk_ok v, inc v h)

/-- Tasks for concrete runs: task 4 is waiting, task 5 finished with object 2
as its result, task 6 ended cancelled and has no result, and so has every other
task. -/
def sample_tasks : Tasks where
  state := fun t => if t = 4 then .waiting else if t = 5 then .finished else .cancelled
  m_value := fun t => if t = 5 then .heap 2 else .nullptr

/-! ## `lean_io_prim_handle_get_line` -/

/-- A C stream as a byte stream: the bytes not yet read, the end-of-file
indicator and the error indicator. -/
structure FILE where
  unread : List Nat
  eof : Bool
  err : Bool
  deriving DecidableEq, Repr

/-- An `IO` result whose value is a string object, given by its bytes, or an
error result. -/
inductive io_string_result where
  | ok (str : List Nat)
  | error
  deriving DecidableEq, Repr

/-- The bytes `fgets` moves into the buffer when it may read up to `n` of them,
and the bytes it leaves: it stops after a newline (byte 10), after `n` bytes, or
at the end of the input. -/
def fgets_chunk : Nat → List Nat → List Nat × List Nat
  | 0, s => ([], s)
  | _ + 1, [] => ([], [])
  | n + 1, b :: s =>
      if b = 10 then ([b], s)
      else (b :: (fgets_chunk n s).1, (fgets_chunk n s).2)

/-- The C library call `fgets(buf, size, fp)`: `none` is the null return (read
error, or end of input with nothing read, which sets the end-of-file
indicator); otherwise the buffer contents it wrote, the chunk followed by the
terminating zero byte. A read that runs into the end of the input before a
newline and before the buffer is full sets the end-of-file indicator. -/
def fgets (size : Nat) (fp : FILE) : Option (List Nat) × FILE :=
  if fp.err then (none, fp)
  else if fp.unread = [] then (none, { fp with eof := true })
  else
    let c := fgets_chunk (size - 1) fp.unread
    (some (c.1 ++ [0]),
     { fp with
       unread := c.2
       eof := fp.eof || (decide (c.2 = []) && decide (c.1.getLast? ≠ some 10)
                && decide (c.1.length < size - 1)) })

/-- The C library call `strlen`: the number of bytes before the first zero
byte. -/
def strlen (buf : List Nat) : Nat := (buf.takeWhile (fun b => b ≠ 0)).length

/-- The bytes of the C string in a buffer, which is what `mk_string(char const *)` and
`std::string::append(char const *)` take from it: those before the first zero
byte. -/
def c_str (buf : List Nat) : List Nat := buf.takeWhile (fun b => b ≠ 0)

/-- The C library call `clearerr`. -/
def clearerr (fp : FILE) : FILE := { fp with eof := false, err := false }

/-- The `while (true)` loop of `lean_io_prim_handle_get_line`, with
`buf_sz = 64`; `result` and `first` are the local variables of that name. The
test `buf_str[buf_sz-2] == 10` is reached only when the chunk fills the buffer,
so it reads a byte `fgets` has just written. -/
def lean_io_prim_handle_get_line_loop :
    Nat → FILE → List Nat → Bool → Exec (io_string_result × FILE)
  | 0, _, _, _ => .spinning
  | fuel + 1, fp, result, first =>
      match fgets 64 fp with
      | (some out, fp1) =>
          if strlen out < 64 - 1 ∨ out.getD (64 - 2) 0 = 10 then
            if first then .ret (.ok (c_str out), fp1)
            else .ret (.ok (result ++ c_str out), fp1)
          else lean_io_prim_handle_get_line_loop fuel fp1 (result ++ c_str out) false
      | (none, fp1) =>
          if fp1.eof then .ret (.ok result, clearerr fp1)
          else .ret (.error, fp1)

/-- Source: `lean_io_prim_handle_get_line`. Every round but the last takes
63 bytes off the input, so one round per unread byte and one more are enough
for the loop to return. -/
def lean_io_prim_handle_get_line (fp : FILE) : Exec (io_string_result × FILE) :=
  lean_io_prim_handle_get_line_loop (fp.unread.length + 1) fp [] true

/-- A stream for concrete runs: a line of 71 bytes, `a`, a zero byte, 68 times
`b` and the newline, followed by the line `c` and its newline. -/
def sample_stream : FILE where
  unread := [97, 0] ++ List.replicate 68 98 ++ [10, 99, 10]
  eof := false
  err := false

/-! ## Facts about the helpers -/

@[simp] theorem inc_m_value (o : object_ptr) (h : Heap) : (inc o h).m_value = h.m_value := by
  cases o <;> rfl

@[simp] theorem inc_cls (o : object_ptr) (h : Heap) : (inc o h).cls = h.cls := by
  cases o <;> rfl

@[simp] theorem dec_m_value (o : object_ptr) (h : Heap) : (dec o h).m_value = h.m_value := by
  cases o <;> rfl

@[simp] theorem dec_cls (o : object_ptr) (h : Heap) : (dec o h).cls = h.cls := by
  cases o <;> rfl

@[simp] theorem store_m_value_cls (c : Addr) (v : object_ptr) (h : Heap) :
    (store_m_value c v h).cls = h.cls := rfl

@[simp] theorem store_m_value_rc (c : Addr) (v : object_ptr) (h : Heap) :
    (store_m_value c v h).rc = h.rc := rfl

@[simp] theorem store_m_value_same (c : Addr) (v : object_ptr) (h : Heap) :
    (store_m_value c v h).m_value c = v := by
  simp [store_m_value]

theorem mark_mt_walk_m_value (fuel : Nat) (o : object_ptr) (h : Heap) :
    (mark_mt_walk fuel o h).m_value = h.m_value := by
  induction fuel generalizing o h with
  | zero => rfl
  | succ n ih =>
    cases o with
    | nullptr => rfl
    | scalar k => rfl
    | heap a =>
      simp only [mark_mt_walk]
      split
      · rw [ih]
      · rfl

theorem mark_mt_walk_rc (fuel : Nat) (o : object_ptr) (h : Heap) :
    (mark_mt_walk fuel o h).rc = h.rc := by
  induction fuel generalizing o h with
  | zero => rfl
  | succ n ih =>
    cases o with
    | nullptr => rfl
    | scalar k => rfl
    | heap a =>
      simp only [mark_mt_walk]
      split
      · rw [ih]
      · rfl

/-- The walk never touches an object that is already escalated. -/
theorem mark_mt_walk_cls_of_ne (fuel : Nat) (o : object_ptr) (h : Heap) (x : Addr)
    (hx : h.cls x ≠ .exclusive) : (mark_mt_walk fuel o h).cls x = h.cls x := by
  induction fuel generalizing o h with
  | zero => rfl
  | succ n ih =>
    cases o with
    | nullptr => rfl
    | scalar k => rfl
    | heap a =>
      simp only [mark_mt_walk]
      split
      · rename_i ha
        have hne : x ≠ a := fun e => hx (e ▸ ha)
        rw [ih]
        · simp [Function.update, hne]
        · simp [Function.update, hne, hx]
      · rfl

@[simp] theorem mark_mt_m_value (o : object_ptr) (h : Heap) :
    (mark_mt o h).m_value = h.m_value := mark_mt_walk_m_value _ _ _

@[simp] theorem mark_mt_rc (o : object_ptr) (h : Heap) : (mark_mt o h).rc = h.rc :=
  mark_mt_walk_rc _ _ _

theorem mark_mt_cls_of_ne (o : object_ptr) (h : Heap) (x : Addr)
    (hx : h.cls x ≠ .exclusive) : (mark_mt o h).cls x = h.cls x :=
  mark_mt_walk_cls_of_ne _ _ _ _ hx

theorem ref_maybe_mt_iff (c : Addr) (h : Heap) :
    ref_maybe_mt c h = true ↔ h.cls c ≠ .exclusive := by
  unfold ref_maybe_mt lean_is_mt lean_is_persistent
  cases hc : h.cls c <;> simp

/-! ## The primitives on a cell that no other thread touches -/

/-- What `lean_st_ref_get` does on a non-empty slot, on either path. -/
theorem get_nonempty (checked : Bool) (fuel : Nat) (c : Addr) (h : Heap) (p : object_ptr)
    (hp : h.m_value c = p) (hn : p ≠ .nullptr) :
    ∃ h1, lean_st_ref_get checked (fuel + 1) c h = .ret (.ok p, h1) ∧
      h1.m_value = h.m_value ∧ h1.rc = (inc p h).rc ∧ h1.cls = h.cls := by
  subst hp
  unfold lean_st_ref_get
  split
  · refine ⟨store_m_value c (h.m_value c) (inc (h.m_value c) (store_m_value c .nullptr h)),
      ?_, ?_, ?_, ?_⟩
    · simp [lean_st_ref_get_loop, exchange, io_result_mk_ok, hn]
    · simp [store_m_value]
    · cases hm : h.m_value c <;> simp [inc, store_m_value]
    · simp
  · refine ⟨inc (h.m_value c) h, ?_, by simp, rfl, by simp⟩
    simp [hn, io_result_mk_ok]

/-- What `lean_st_ref_set` leaves in the slot and in the class of the cell. -/
theorem set_slot (c : Addr) (v : object_ptr) (h : Heap) :
    (lean_st_ref_set c v h).2.m_value c = v ∧
      (lean_st_ref_set c v h).2.cls c = h.cls c := by
  unfold lean_st_ref_set
  split
  · rename_i hc
    have hx := (ref_maybe_mt_iff c h).1 hc
    refine ⟨?_, ?_⟩
    · simp only [exchange]
      split <;> simp
    · simp only [exchange]
      split <;> simp [mark_mt_cls_of_ne _ _ _ hx]
  · refine ⟨by simp, ?_⟩
    simp only [store_m_value_cls]
    split <;> simp

/-- C1. Last-write-wins: on a cell of any ownership class that no other thread
touches, `lean_st_ref_set(c, v1)`, then `lean_st_ref_set(c, v2)`, then
`lean_st_ref_get(c)` returns an ok result carrying `v2`, and the slot still
holds `v2` after the read. -/
theorem last_write_wins (checked : Bool) (fuel : Nat) (c : Addr) (v1 v2 : object_ptr)
    (h : Heap) (hv : v2 ≠ .nullptr) :
    ∃ h3, lean_st_ref_get checked (fuel + 1) c
        (lean_st_ref_set c v2 (lean_st_ref_set c v1 h).2).2 = .ret (.ok v2, h3) ∧
      h3.m_value c = v2 := by
  have hs := (set_slot c v2 (lean_st_ref_set c v1 h).2).1
  obtain ⟨h3, e, hm, -, -⟩ := get_nonempty checked fuel c _ v2 hs hv
  exact ⟨h3, e, by rw [hm]; exact hs⟩

/-- Witness for C1 on a multithread cell that starts empty. -/
theorem last_write_wins_witness :
    object_ptr.heap 3 ≠ .nullptr ∧
    ∃ h3, lean_st_ref_get true 1 0
        (lean_st_ref_set 0 (.heap 3)
          (lean_st_ref_set 0 (.heap 2) (sample_heap .multithread .nullptr)).2).2
          = .ret (.ok (.heap 3), h3) ∧
      h3.m_value 0 = .heap 3 :=
  ⟨by decide, last_write_wins true 0 0 (.heap 2) (.heap 3) (sample_heap .multithread .nullptr)
    (by decide)⟩

/-- What `lean_st_ref_swap` does on a non-empty slot, on either path. -/
theorem swap_nonempty (g : Globals) (fuel : Nat) (c : Addr) (v p : object_ptr) (h : Heap)
    (hp : h.m_value c = p) (hn : p ≠ .nullptr) :
    ∃ h1, lean_st_ref_swap g (fuel + 1) c v h = .ret (.ok p, h1) ∧
      h1.m_value c = v ∧ h1.rc = h.rc ∧
      h1.cls = (if ref_maybe_mt c h then (mark_mt v h).cls else h.cls) := by
  subst hp
  unfold lean_st_ref_swap
  split
  · refine ⟨store_m_value c v (mark_mt v h), ?_, by simp, by simp, by simp⟩
    simp [lean_st_ref_swap_loop, exchange, io_result_mk_ok, hn]
  · refine ⟨store_m_value c v h, ?_, by simp, by simp, by simp⟩
    simp [hn, io_result_mk_ok]

/-- What `lean_st_ref_take` does on a non-empty slot, on either path. -/
theorem take_nonempty (checked : Bool) (fuel : Nat) (c : Addr) (p : object_ptr) (h : Heap)
    (hp : h.m_value c = p) (hn : p ≠ .nullptr) :
    lean_st_ref_take checked (fuel + 1) c h = .ret (.ok p, store_m_value c .nullptr h) := by
  subst hp
  unfold lean_st_ref_take
  split
  · simp [lean_st_ref_take_loop, exchange, io_result_mk_ok, hn]
  · simp [hn, io_result_mk_ok]

/-- On an empty slot `lean_st_ref_set` releases nothing. -/
theorem set_empty_rc (c : Addr) (v : object_ptr) (h : Heap) (he : h.m_value c = .nullptr) :
    (lean_st_ref_set c v h).2.rc = h.rc := by
  unfold lean_st_ref_set
  split <;> simp [exchange, he]

/-- C2. On a cell whose slot holds `p` (non-empty, no concurrent access),
`lean_st_ref_swap(c, v)` returns an ok result carrying exactly `p` on the fast
and on the slow path, and a following `lean_st_ref_get(c)` returns `v`. -/
theorem swap_returns_previous (g : Globals) (checked : Bool) (fuel fuel2 : Nat) (c : Addr)
    (v p : object_ptr) (h : Heap) (hp : h.m_value c = p) (hn : p ≠ .nullptr)
    (hv : v ≠ .nullptr) :
    ∃ h1 h2, lean_st_ref_swap g (fuel + 1) c v h = .ret (.ok p, h1) ∧
      lean_st_ref_get checked (fuel2 + 1) c h1 = .ret (.ok v, h2) := by
  obtain ⟨h1, e1, hm, -, -⟩ := swap_nonempty g fuel c v p h hp hn
  obtain ⟨h2, e2, -⟩ := get_nonempty checked fuel2 c h1 v hm hv
  exact ⟨h1, h2, e1, e2⟩

/-- Witness for C2 on a persistent cell holding object 2. -/
theorem swap_returns_previous_witness :
    (sample_heap .persistent (.heap 2)).m_value 0 = .heap 2 ∧
    ∃ h1 h2, lean_st_ref_swap Globals.static_init 1 0 (.heap 3)
        (sample_heap .persistent (.heap 2)) = .ret (.ok (.heap 2), h1) ∧
      lean_st_ref_get false 1 0 h1 = .ret (.ok (.heap 3), h2) :=
  ⟨rfl, swap_returns_previous Globals.static_init false 0 0 0 (.heap 3) (.heap 2)
    (sample_heap .persistent (.heap 2)) rfl (by decide) (by decide)⟩

/-- C3. On a cell with a non-empty slot, `lean_st_ref_take(c)` returns the
occupant and empties the slot; `lean_st_ref_set(c, v)` on the emptied slot
installs `v` and changes no reference count (nothing is released); and
`lean_st_ref_get(c)` then returns `v`. -/
theorem take_set_get (checked : Bool) (fuel fuel2 : Nat) (c : Addr) (v p : object_ptr)
    (h : Heap) (hp : h.m_value c = p) (hn : p ≠ .nullptr) (hv : v ≠ .nullptr) :
    ∃ h1 h3, lean_st_ref_take checked (fuel + 1) c h = .ret (.ok p, h1) ∧
      h1.m_value c = .nullptr ∧
      (lean_st_ref_set c v h1).2.m_value c = v ∧
      (lean_st_ref_set c v h1).2.rc = h1.rc ∧
      lean_st_ref_get checked (fuel2 + 1) c (lean_st_ref_set c v h1).2 = .ret (.ok v, h3) := by
  have hs := (set_slot c v (store_m_value c .nullptr h)).1
  obtain ⟨h3, e3, -⟩ := get_nonempty checked fuel2 c _ v hs hv
  exact ⟨_, h3, take_nonempty checked fuel c p h hp hn, by simp, hs,
    set_empty_rc c v _ (by simp), e3⟩

/-- Witness for C3 on an exclusive cell holding object 2, with assertions
checked. -/
theorem take_set_get_witness :
    (sample_heap .exclusive (.heap 2)).m_value 0 = .heap 2 ∧
    ∃ h1 h3, lean_st_ref_take true 1 0 (sample_heap .exclusive (.heap 2))
        = .ret (.ok (.heap 2), h1) ∧
      h1.m_value 0 = .nullptr ∧
      (lean_st_ref_set 0 (.heap 3) h1).2.m_value 0 = .heap 3 ∧
      (lean_st_ref_set 0 (.heap 3) h1).2.rc = h1.rc ∧
      lean_st_ref_get true 1 0 (lean_st_ref_set 0 (.heap 3) h1).2
        = .ret (.ok (.heap 3), h3) :=
  ⟨rfl, take_set_get true 0 0 0 (.heap 3) (.heap 2) (sample_heap .exclusive (.heap 2)) rfl
    (by decide) (by decide)⟩

/-- C4. `lean_st_ref_ptr_eq(a, b)` returns ok(true) exactly when the occupants
of the two slots are the same pointer, and ok(false) otherwise; so it returns
true on `(c, c)` for every cell, and false for two cells that hold distinct
heap objects, whatever the attributes of those objects. -/
theorem ptr_eq_identity (a b : Addr) (h : Heap) :
    (lean_st_ref_ptr_eq a b h = .ok (box 1) ↔ h.m_value a = h.m_value b) ∧
    (lean_st_ref_ptr_eq a b h = .ok (box 0) ↔ h.m_value a ≠ h.m_value b) ∧
    lean_st_ref_ptr_eq a a h = .ok (box 1) ∧
    (∀ x y : Addr, x ≠ y → h.m_value a = .heap x → h.m_value b = .heap y →
      lean_st_ref_ptr_eq a b h = .ok (box 0)) := by
  have key : ∀ r s : Addr, lean_st_ref_ptr_eq r s h =
      if h.m_value r = h.m_value s then .ok (box 1) else .ok (box 0) := by
    intro r s
    unfold lean_st_ref_ptr_eq io_result_mk_ok
    by_cases e : h.m_value r = h.m_value s <;> simp [e]
  refine ⟨?_, ?_, ?_, ?_⟩
  · rw [key]; by_cases e : h.m_value a = h.m_value b <;> simp [e, box]
  · rw [key]; by_cases e : h.m_value a = h.m_value b <;> simp [e, box]
  · rw [key]; simp
  · intro x y hxy hx hy
    rw [key, hx, hy]
    simp [hxy]

/-- Witness for C4: cells 0 and 1 hold objects 2 and 3, which agree in class,
count and slot and differ only in address; the comparison is false, and each
cell compared with itself gives true. -/
theorem ptr_eq_identity_witness :
    lean_st_ref_ptr_eq 0 1 (sample_heap .exclusive (.heap 2)) = .ok (box 0) ∧
    lean_st_ref_ptr_eq 0 0 (sample_heap .exclusive (.heap 2)) = .ok (box 1) :=
  ⟨(ptr_eq_identity 0 1 (sample_heap .exclusive (.heap 2))).2.2.2 2 3 (by decide) rfl rfl,
   (ptr_eq_identity 0 0 (sample_heap .exclusive (.heap 2))).2.2.1⟩

/-- On the fast path `lean_st_ref_swap` on an empty slot returns the error
result built from `g_io_error_nullptr_read` and leaves the heap as it was. -/
theorem swap_empty_fast (g : Globals) (fuel : Nat) (c : Addr) (v : object_ptr) (h : Heap)
    (hc : ref_maybe_mt c h = false) (he : h.m_value c = .nullptr) :
    lean_st_ref_swap g fuel c v h = .ret (.error g.g_io_error_nullptr_read, h) := by
  simp [lean_st_ref_swap, hc, he, io_result_mk_error]

/-- C5. Run of the fast path of `lean_st_ref_swap` on an exclusive cell with an
empty slot, after `initialize_io`: the call returns an error result and the slot
stays empty, but the error object it carries is the null pointer, since
`g_io_error_nullptr_read` is never assigned. -/
theorem swap_empty_fast_error_is_null :
    lean_st_ref_swap (initialize_io Globals.static_init) 1 0 (.heap 2)
        (sample_heap .exclusive .nullptr)
      = .ret (.error .nullptr, sample_heap .exclusive .nullptr) ∧
    (sample_heap .exclusive .nullptr).m_value 0 = .nullptr :=
  ⟨swap_empty_fast _ 1 0 (.heap 2) _ rfl rfl, rfl⟩

/-- C6, as stated, fails: on an exclusive cell with an empty slot and
assertions compiled out, `lean_st_ref_take` returns an ok result carrying the
null pointer, not an error result. -/
theorem take_empty_fast_counterexample :
    (∃ h1, lean_st_ref_take false 1 0 (sample_heap .exclusive .nullptr)
        = .ret (.ok .nullptr, h1)) ∧
    ¬ ∃ e h1, lean_st_ref_take false 1 0 (sample_heap .exclusive .nullptr)
        = .ret (.error e, h1) := by
  have e : lean_st_ref_take false 1 0 (sample_heap .exclusive .nullptr)
      = .ret (.ok .nullptr, store_m_value 0 .nullptr (sample_heap .exclusive .nullptr)) := rfl
  refine ⟨⟨_, e⟩, ?_⟩
  rintro ⟨x, h1, hx⟩
  rw [e] at hx
  cases hx

/-- C6, amended. On the fast path (exclusive cell), `lean_st_ref_take(c)` on an
empty slot never returns an error result: emptiness is guarded by `lean_assert`
only. With assertions compiled out the call returns an ok result carrying the
null pointer and the slot stays empty; with assertions compiled in it stops at
the failed assertion. -/
theorem take_empty_fast (checked : Bool) (fuel : Nat) (c : Addr) (h : Heap)
    (hc : ref_maybe_mt c h = false) (he : h.m_value c = .nullptr) :
    lean_st_ref_take checked fuel c h =
        (if checked then .assertion_violation
         else .ret (.ok .nullptr, store_m_value c .nullptr h)) ∧
    (store_m_value c .nullptr h).m_value c = .nullptr ∧
    ¬ ∃ e h1, lean_st_ref_take checked fuel c h = .ret (.error e, h1) := by
  have key : lean_st_ref_take checked fuel c h =
      (if checked then .assertion_violation
       else .ret (.ok .nullptr, store_m_value c .nullptr h)) := by
    cases checked <;> simp [lean_st_ref_take, hc, he, io_result_mk_ok]
  refine ⟨key, by simp, ?_⟩
  rintro ⟨x, h1, hx⟩
  rw [key] at hx
  cases checked
  · simp at hx
  · simp at hx

/-- Witness for the amended C6, with assertions compiled in. -/
theorem take_empty_fast_witness :
    ref_maybe_mt 0 (sample_heap .exclusive .nullptr) = false ∧
    lean_st_ref_take true 1 0 (sample_heap .exclusive .nullptr) = .assertion_violation :=
  ⟨rfl, (take_empty_fast true 1 0 (sample_heap .exclusive .nullptr) rfl rfl).1⟩

/-- C7. On a cell whose slot holds `p` (non-empty, no concurrent access),
`lean_st_ref_get(c)` returns ok(`p`) on the fast and on the slow path, adds
exactly one to the reference count of `p`, changes no other reference count,
and leaves the slot holding `p`. -/
theorem get_frame (checked : Bool) (fuel : Nat) (c : Addr) (h : Heap) (p : object_ptr)
    (hp : h.m_value c = p) (hn : p ≠ .nullptr) :
    ∃ h1, lean_st_ref_get checked (fuel + 1) c h = .ret (.ok p, h1) ∧
      (∀ a, p = .heap a → h1.rc a = h.rc a + 1) ∧
      (∀ a, p ≠ .heap a → h1.rc a = h.rc a) ∧
      h1.m_value c = p := by
  obtain ⟨h1, e, hm, hr, -⟩ := get_nonempty checked fuel c h p hp hn
  refine ⟨h1, e, ?_, ?_, by rw [hm, hp]⟩
  · intro a ha
    rw [hr, ha]
    simp [inc]
  · intro a ha
    rw [hr]
    cases p with
    | nullptr => rfl
    | scalar k => rfl
    | heap b =>
      have hne : a ≠ b := fun e => ha (by rw [e])
      simp [inc, Function.update, hne]

/-- Witness for C7 on a multithread cell holding object 2. -/
theorem get_frame_witness :
    (sample_heap .multithread (.heap 2)).m_value 0 = .heap 2 ∧
    ∃ h1, lean_st_ref_get false 1 0 (sample_heap .multithread (.heap 2))
        = .ret (.ok (.heap 2), h1) ∧
      (∀ a, object_ptr.heap 2 = .heap a → h1.rc a = (sample_heap .multithread (.heap 2)).rc a + 1) ∧
      (∀ a, object_ptr.heap 2 ≠ .heap a → h1.rc a = (sample_heap .multithread (.heap 2)).rc a) ∧
      h1.m_value 0 = .heap 2 :=
  ⟨rfl, get_frame false 0 0 (sample_heap .multithread (.heap 2)) (.heap 2) rfl (by decide)⟩

/-- C8. On a cell whose slot holds `p` (non-empty, no concurrent access),
`lean_st_ref_take(c)` returns ok(`p`) on the fast and on the slow path, leaves
the slot empty, and changes no reference count. -/
theorem take_frame (checked : Bool) (fuel : Nat) (c : Addr) (h : Heap) (p : object_ptr)
    (hp : h.m_value c = p) (hn : p ≠ .nullptr) :
    ∃ h1, lean_st_ref_take checked (fuel + 1) c h = .ret (.ok p, h1) ∧
      h1.m_value c = .nullptr ∧ h1.rc = h.rc :=
  ⟨_, take_nonempty checked fuel c p h hp hn, by simp, by simp⟩

/-- Witness for C8 on a persistent cell holding object 2. -/
theorem take_frame_witness :
    (sample_heap .persistent (.heap 2)).m_value 0 = .heap 2 ∧
    ∃ h1, lean_st_ref_take true 1 0 (sample_heap .persistent (.heap 2))
        = .ret (.ok (.heap 2), h1) ∧
      h1.m_value 0 = .nullptr ∧ h1.rc = (sample_heap .persistent (.heap 2)).rc :=
  ⟨rfl, take_frame true 0 0 (sample_heap .persistent (.heap 2)) (.heap 2) rfl (by decide)⟩

/-- After `mark_mt(a)` the object `a` is escalated. -/
theorem mark_mt_escalates (a : Addr) (h : Heap) :
    (mark_mt (.heap a) h).cls a ≠ .exclusive := by
  unfold mark_mt
  simp only [mark_mt_walk]
  split
  · rw [mark_mt_walk_cls_of_ne] <;> simp
  · assumption

/-- The slow-path loop of `lean_st_ref_swap` with a non-null argument returns
within two rounds: at once with the occupant if the slot is non-empty, and
otherwise in the second round with the value the first round stored. -/
theorem swap_loop_returns (fuel : Nat) (c : Addr) (v : object_ptr) (h : Heap)
    (hv : v ≠ .nullptr) :
    ∃ h1, lean_st_ref_swap_loop c v (fuel + 2) h
        = .ret (.ok (if h.m_value c = .nullptr then v else h.m_value c), h1) ∧
      h1.m_value c = v ∧ h1.cls = h.cls ∧ h1.rc = h.rc := by
  by_cases he : h.m_value c = .nullptr
  · refine ⟨store_m_value c v (store_m_value c v h), ?_, by simp, by simp, by simp⟩
    simp [lean_st_ref_swap_loop, exchange, io_result_mk_ok, he, hv]
  · refine ⟨store_m_value c v h, ?_, by simp, by simp, by simp⟩
    simp [lean_st_ref_swap_loop, exchange, io_result_mk_ok, he]

theorem writers_inv_init (c : Addr) (h : Heap) (hc : ref_maybe_mt c h = true)
    (hs : ∀ x, h.m_value c = .heap x → h.cls x ≠ .exclusive) : (Writers.init h).inv c :=
  { cell_mt := hc
    slot_esc := hs
    pending_esc := fun t x e => by simp [Writers.init, WriterPc.pending] at e }

/-- Entering a call runs `mark_mt(a)`: the slot is untouched, no escalated
object changes class, and `a` is escalated from then on. -/
theorem writers_inv_call (c : Addr) (t : Nat) (a : object_ptr) (p : WriterPc) (s : Writers)
    (hp : p.pending = some a) (hi : s.inv c) :
    Writers.inv c { heap := mark_mt a s.heap, pc := Function.update s.pc t p } := by
  refine ⟨?_, ?_, ?_⟩
  · rw [ref_maybe_mt_iff]
    show (mark_mt a s.heap).cls c ≠ _
    rw [mark_mt_cls_of_ne _ _ _ ((ref_maybe_mt_iff c s.heap).1 hi.cell_mt)]
    exact (ref_maybe_mt_iff c s.heap).1 hi.cell_mt
  · intro x hx
    show (mark_mt a s.heap).cls x ≠ _
    have hx2 : s.heap.m_value c = .heap x := by simpa using hx
    rw [mark_mt_cls_of_ne _ _ _ (hi.slot_esc x hx2)]
    exact hi.slot_esc x hx2
  · intro u x hu
    show (mark_mt a s.heap).cls x ≠ _
    by_cases hut : u = t
    · subst hut
      simp only [Function.update_same, hp, Option.some.injEq] at hu
      subst hu
      exact mark_mt_escalates x s.heap
    · simp only [Function.update, hut, dite_false] at hu
      rw [mark_mt_cls_of_ne _ _ _ (hi.pending_esc u x hu)]
      exact hi.pending_esc u x hu

/-- The exchange stores a value that is escalated already and changes no
class. -/
theorem writers_inv_exchange (c : Addr) (t : Nat) (s : Writers) (hi : s.inv c) :
    (writer_exchange c t s).inv c := by
  have hmt : ∀ h1 : Heap, h1.cls = s.heap.cls → ref_maybe_mt c h1 = true := by
    intro h1 e
    rw [ref_maybe_mt_iff, e]
    exact (ref_maybe_mt_iff c s.heap).1 hi.cell_mt
  have hpc : ∀ (q : WriterPc) (a : object_ptr), s.pc t = q → q.pending = some a →
      ∀ (p : WriterPc), (p = .idle ∨ p = q) → ∀ u x,
      (Function.update s.pc t p u).pending = some (.heap x) → s.heap.cls x ≠ .exclusive := by
    intro q a hq _ p hp u x hu
    by_cases hut : u = t
    · subst hut
      rcases hp with rfl | rfl
      · simp [WriterPc.pending] at hu
      · simp only [Function.update_same] at hu
        exact hi.pending_esc u x (by rw [hq]; exact hu)
    · simp only [Function.update, hut, dite_false] at hu
      exact hi.pending_esc u x hu
  unfold writer_exchange
  split
  · exact hi
  · rename_i a hq
    have hcl : (if (exchange c a s.heap).1 ≠ .nullptr then
        dec (exchange c a s.heap).1 (exchange c a s.heap).2
        else (exchange c a s.heap).2).cls = s.heap.cls := by
      simp only [exchange]
      split <;> simp
    have hmv : (if (exchange c a s.heap).1 ≠ .nullptr then
        dec (exchange c a s.heap).1 (exchange c a s.heap).2
        else (exchange c a s.heap).2).m_value c = a := by
      simp only [exchange]
      split <;> simp
    refine ⟨hmt _ hcl, ?_, ?_⟩
    · intro x hx
      simp only [hmv] at hx
      simp only [hcl]
      exact hi.pending_esc t x (by rw [hq, hx]; rfl)
    · intro u x hu
      simp only [hcl]
      exact hpc _ a hq rfl .idle (Or.inl rfl) u x hu
  · rename_i a hq
    have key : ∀ p : WriterPc, (p = .idle ∨ p = .swap_marked a) →
        Writers.inv c { heap := (exchange c a s.heap).2, pc := Function.update s.pc t p } := by
      intro p hp
      refine ⟨hmt _ (by simp [exchange]), ?_, ?_⟩
      · intro x hx
        have hx2 : a = .heap x := by simpa [exchange] using hx
        show s.heap.cls x ≠ _
        exact hi.pending_esc t x (by rw [hq, hx2]; rfl)
      · intro u x hu
        show s.heap.cls x ≠ _
        exact hpc _ a hq rfl p hp u x hu
    by_cases ho : (exchange c a s.heap).1 ≠ .nullptr
    · show Writers.inv c (if (exchange c a s.heap).1 ≠ .nullptr then _ else _)
      rw [if_pos ho]
      exact key _ (Or.inl rfl)
    · show Writers.inv c (if (exchange c a s.heap).1 ≠ .nullptr then _ else _)
      rw [if_neg ho]
      exact key _ (Or.inr rfl)

theorem writers_inv_run (n : Nat) (c : Addr) (es : List WriterEvent) (s : Writers)
    (hi : s.inv c) : (run_writers n c s es).inv c := by
  induction es generalizing s with
  | nil => exact hi
  | cons e es ih =>
    apply ih
    cases e with
    | call_set t a =>
      simp only [writer_step]
      split
      · exact writers_inv_call c t a _ s rfl hi
      · exact hi
    | call_swap t a =>
      simp only [writer_step]
      split
      · exact writers_inv_call c t a _ s rfl hi
      · exact hi
    | exchange t =>
      simp only [writer_step]
      split
      · exact writers_inv_exchange c t s hi
      · exact hi

/-- Run by one thread alone, the two steps of a set on a multithread or
persistent cell give the heap of `lean_st_ref_set`. -/
theorem writers_set_refines (n : Nat) (c : Addr) (a : object_ptr) (h : Heap) (t : Nat)
    (ht : t < n) (hc : ref_maybe_mt c h = true) :
    (run_writers n c (Writers.init h) [.call_set t a, .exchange t]).heap
      = (lean_st_ref_set c a h).2 := by
  simp [run_writers, writer_step, writer_exchange, Writers.init, ht, lean_st_ref_set, hc]

/-- Run by one thread alone on a non-empty slot, the two steps of a swap on a
multithread or persistent cell give the heap of `lean_st_ref_swap`. -/
theorem writers_swap_refines (g : Globals) (fuel n : Nat) (c : Addr) (a : object_ptr)
    (h : Heap) (t : Nat) (ht : t < n) (hc : ref_maybe_mt c h = true)
    (hne : h.m_value c ≠ .nullptr) :
    lean_st_ref_swap g (fuel + 1) c a h = .ret (.ok (h.m_value c),
      (run_writers n c (Writers.init h) [.call_swap t a, .exchange t]).heap) := by
  simp [run_writers, writer_step, writer_exchange, Writers.init, ht, lean_st_ref_swap, hc,
    lean_st_ref_swap_loop, exchange, hne, io_result_mk_ok]

/-- C9. Escalation invariant. On a multithread or persistent cell
(`ref_maybe_mt`), `lean_st_ref_set` and `lean_st_ref_swap` run `mark_mt` on the
incoming object before the exchange that makes it the occupant of the slot.
End to end: the call returns with the object in the slot, the ownership classes
are those `mark_mt` produced, and the stored object is escalated. Step by step,
with each call split at its exchange and any number of threads under any
schedule, from a slot whose occupant is escalated: in every state reached, the
occupant of the slot is escalated, and so is already every object that a
thread is about to exchange into the slot; and the two steps of a call, run
alone, give the heap of `lean_st_ref_set` and of `lean_st_ref_swap`. On an
exclusive cell the object is stored and no ownership class changes. -/
theorem escalation_invariant (g : Globals) (fuel : Nat) (c a : Addr) (h : Heap) (n : Nat)
    (es : List WriterEvent) :
    (ref_maybe_mt c h = true →
      ((lean_st_ref_set c (.heap a) h).2.m_value c = .heap a ∧
        (lean_st_ref_set c (.heap a) h).2.cls = (mark_mt (.heap a) h).cls ∧
        (lean_st_ref_set c (.heap a) h).2.cls a ≠ .exclusive) ∧
      (∃ r h1, lean_st_ref_swap g (fuel + 2) c (.heap a) h = .ret (r, h1) ∧
        h1.m_value c = .heap a ∧ h1.cls = (mark_mt (.heap a) h).cls ∧
        h1.cls a ≠ .exclusive) ∧
      ((∀ x, h.m_value c = .heap x → h.cls x ≠ .exclusive) →
        (∀ x, (run_writers n c (Writers.init h) es).heap.m_value c = .heap x →
          (run_writers n c (Writers.init h) es).heap.cls x ≠ .exclusive) ∧
        (∀ t x, ((run_writers n c (Writers.init h) es).pc t).pending = some (.heap x) →
          (run_writers n c (Writers.init h) es).heap.cls x ≠ .exclusive)) ∧
      (∀ t, t < n →
        (run_writers n c (Writers.init h) [.call_set t (.heap a), .exchange t]).heap
          = (lean_st_ref_set c (.heap a) h).2 ∧
        (h.m_value c ≠ .nullptr →
          lean_st_ref_swap g (fuel + 1) c (.heap a) h = .ret (.ok (h.m_value c),
            (run_writers n c (Writers.init h)
              [.call_swap t (.heap a), .exchange t]).heap)))) ∧
    (ref_maybe_mt c h = false →
      ((lean_st_ref_set c (.heap a) h).2.m_value c = .heap a ∧
        (lean_st_ref_set c (.heap a) h).2.cls = h.cls) ∧
      (h.m_value c ≠ .nullptr →
        ∃ r h1, lean_st_ref_swap g fuel c (.heap a) h = .ret (r, h1) ∧
          h1.m_value c = .heap a ∧ h1.cls = h.cls)) := by
  refine ⟨fun hc => ⟨?_, ?_, ?_, ?_⟩, fun hc => ⟨?_, ?_⟩⟩
  · have hcl : (lean_st_ref_set c (.heap a) h).2.cls = (mark_mt (.heap a) h).cls := by
      simp only [lean_st_ref_set, hc, if_true, exchange]
      split <;> simp
    exact ⟨(set_slot c _ h).1, hcl, by rw [hcl]; exact mark_mt_escalates a h⟩
  · obtain ⟨h1, e, hm, hcl, -⟩ :=
      swap_loop_returns fuel c (.heap a) (mark_mt (.heap a) h) (by simp)
    have e2 : lean_st_ref_swap g (fuel + 2) c (.heap a) h =
        lean_st_ref_swap_loop c (.heap a) (fuel + 2) (mark_mt (.heap a) h) := by
      simp only [lean_st_ref_swap, hc, if_true]
    exact ⟨_, h1, e2.trans e, hm, hcl, by rw [hcl]; exact mark_mt_escalates a h⟩
  · intro hs
    have hi := writers_inv_run n c es _ (writers_inv_init c h hc hs)
    exact ⟨hi.slot_esc, hi.pending_esc⟩
  · intro t ht
    exact ⟨writers_set_refines n c (.heap a) h t ht hc,
      fun hne => writers_swap_refines g fuel n c (.heap a) h t ht hc hne⟩
  · refine ⟨(set_slot c _ h).1, ?_⟩
    have e : (lean_st_ref_set c (.heap a) h).2 = store_m_value c (.heap a)
        (if h.m_value c ≠ .nullptr then dec (h.m_value c) h else h) := by
      simp [lean_st_ref_set, hc]
    rw [e, store_m_value_cls]
    split <;> simp
  · intro hne
    refine ⟨.ok (h.m_value c), store_m_value c (.heap a) h, ?_, by simp, by simp⟩
    simp [lean_st_ref_swap, hc, hne, io_result_mk_ok]

/-- Witness for C9, on the multithread cell 0 with an empty slot and the
exclusive objects 2 and 3. After thread 0 has entered `lean_st_ref_set` with
object 2, the slot is still empty and object 2 is shared-multithread already.
At the end of the schedule the slot holds object 2, and by the theorem its
occupant is escalated. Stored into the exclusive cell 1, object 2 stays
exclusive. -/
theorem escalation_invariant_witness :
    ((sample_heap .multithread .nullptr).cls 2 = .exclusive ∧
      (run_writers 2 0 (Writers.init (sample_heap .multithread .nullptr))
        [.call_set 0 (.heap 2)]).heap.m_value 0 = .nullptr ∧
      (run_writers 2 0 (Writers.init (sample_heap .multithread .nullptr))
        [.call_set 0 (.heap 2)]).heap.cls 2 = .multithread) ∧
    ((run_writers 2 0 (Writers.init (sample_heap .multithread .nullptr))
        [.call_set 0 (.heap 2), .call_swap 1 (.heap 3), .exchange 1, .exchange 1,
          .exchange 0]).heap.m_value 0 = .heap 2 ∧
      ∀ x, (run_writers 2 0 (Writers.init (sample_heap .multithread .nullptr))
        [.call_set 0 (.heap 2), .call_swap 1 (.heap 3), .exchange 1, .exchange 1,
          .exchange 0]).heap.m_value 0 = .heap x →
        (run_writers 2 0 (Writers.init (sample_heap .multithread .nullptr))
          [.call_set 0 (.heap 2), .call_swap 1 (.heap 3), .exchange 1, .exchange 1,
            .exchange 0]).heap.cls x ≠ .exclusive) ∧
    (lean_st_ref_set 1 (.heap 2) (sample_heap .multithread .nullptr)).2.cls
      = (sample_heap .multithread .nullptr).cls :=
  ⟨⟨rfl, rfl, rfl⟩,
   ⟨rfl, (((escalation_invariant Globals.static_init 0 0 2 (sample_heap .multithread .nullptr) 2
      [.call_set 0 (.heap 2), .call_swap 1 (.heap 3), .exchange 1, .exchange 1,
        .exchange 0]).1 rfl).2.2.1 (by intro x hx; simp [sample_heap] at hx)).1⟩,
   ((escalation_invariant Globals.static_init 0 1 2 (sample_heap .multithread .nullptr) 0
      []).2 rfl).1.2⟩

/-- C10. Run of the slow path of `lean_st_ref_swap` on a multithread cell whose
slot is empty, with no other thread writing: the first round stores the
argument and reads null, the second round reads the argument back, and the call
returns ok carrying the very object it was asked to install, which was never an
occupant of the slot before the call. -/
theorem swap_empty_slow_returns_argument :
    (sample_heap .multithread .nullptr).m_value 0 = .nullptr ∧
    lean_st_ref_swap_loop 0 (.heap 2) 1 (mark_mt (.heap 2) (sample_heap .multithread .nullptr))
      = .spinning ∧
    ∃ h1, lean_st_ref_swap (initialize_io Globals.static_init) 2 0 (.heap 2)
        (sample_heap .multithread .nullptr) = .ret (.ok (.heap 2), h1) ∧
      h1.m_value 0 = .heap 2 := by
  refine ⟨rfl, rfl, ?_⟩
  obtain ⟨h1, e, hm, -⟩ := swap_loop_returns 0 0 (.heap 2)
    (mark_mt (.heap 2) (sample_heap .multithread .nullptr)) (by decide)
  exact ⟨h1, e, hm⟩

/-! ## Threads running get/set loops -/

theorem inv_init (c : Addr) (h0 : Heap) (hc : ref_maybe_mt c h0 = true) :
    (System.init h0).inv c (h0.m_value c) :=
  { cell_mt := hc
    slot := Or.inr (Or.inl rfl)
    held := fun t val e => by simp [System.init] at e
    rets := fun r hr => by simp [System.init] at hr }

theorem inv_get_step (c : Addr) (v0 : object_ptr) (t : Nat) (s : System)
    (hi : s.inv c v0) : (get_step c t s).inv c v0 := by
  have hmt : ∀ h1 : Heap, h1.cls = s.heap.cls → ref_maybe_mt c h1 = true := by
    intro h1 e
    rw [ref_maybe_mt_iff, e]
    exact (ref_maybe_mt_iff c s.heap).1 hi.cell_mt
  unfold get_step
  split
  · rename_i val hpc
    obtain ⟨hvn, hvk⟩ := hi.held t val hpc
    refine ⟨hmt _ ?_, Or.inr ?_, ?_, ?_⟩
    · simp only [exchange]
      split <;> simp
    · have e : (if (exchange c val s.heap).1 ≠ .nullptr then
          dec (exchange c val s.heap).1 (exchange c val s.heap).2
          else (exchange c val s.heap).2).m_value c = val := by
        simp only [exchange]
        split <;> simp
      show System.known v0 _ _
      simp only [e]
      exact hvk
    · intro u w hu
      by_cases hut : u = t
      · subst hut
        simp at hu
      · simp only [Function.update, hut, dite_false] at hu
        exact hi.held u w hu
    · intro r hr
      simp only [List.mem_cons] at hr
      rcases hr with rfl | hr
      · exact ⟨hvn, hvk⟩
      · exact hi.rets r hr
  · by_cases hv : s.heap.m_value c = .nullptr
    · simp only [exchange, hv, ne_eq, not_true_eq_false, if_false]
      refine ⟨hmt _ (by simp), Or.inl (by simp), ?_, hi.rets⟩
      intro u w hu
      by_cases hut : u = t
      · subst hut
        simp at hu
      · simp only [Function.update, hut, dite_false] at hu
        exact hi.held u w hu
    · have hk : s.known v0 (s.heap.m_value c) := hi.slot.resolve_left hv
      simp only [exchange, ne_eq, hv, not_false_eq_true, if_true]
      refine ⟨hmt _ (by simp), Or.inl (by simp), ?_, hi.rets⟩
      intro u w hu
      by_cases hut : u = t
      · subst hut
        simp only [Function.update_same, ThreadPc.get_swap_back.injEq] at hu
        subst hu
        exact ⟨hv, hk⟩
      · simp only [Function.update, hut, dite_false] at hu
        exact hi.held u w hu

theorem inv_set_step (c : Addr) (v0 : object_ptr) (t : Nat) (a : object_ptr) (s : System)
    (hi : s.inv c v0) : (set_step c t a s).inv c v0 := by
  unfold set_step
  split
  · have hs := set_slot c a s.heap
    have mono : ∀ x, s.known v0 x →
        System.known v0 { s with heap := (lean_st_ref_set c a s.heap).2,
                                 stored := a :: s.stored } x := by
      intro x hx
      rcases hx with hx | hx
      · exact Or.inl hx
      · exact Or.inr (List.mem_cons_of_mem _ hx)
    refine ⟨?_, Or.inr ?_, ?_, ?_⟩
    · rw [ref_maybe_mt_iff]
      show (lean_st_ref_set c a s.heap).2.cls c ≠ _
      rw [hs.2]
      exact (ref_maybe_mt_iff c s.heap).1 hi.cell_mt
    · show System.known v0 _ ((lean_st_ref_set c a s.heap).2.m_value c)
      rw [hs.1]
      exact Or.inr (List.mem_cons_self _ _)
    · intro u w hu
      exact ⟨(hi.held u w hu).1, mono _ (hi.held u w hu).2⟩
    · intro r hr
      exact ⟨(hi.rets r hr).1, mono _ (hi.rets r hr).2⟩
  · exact hi

theorem inv_run (n : Nat) (c : Addr) (v0 : object_ptr) (es : List Event) (s : System)
    (hi : s.inv c v0) : (run n c s es).inv c v0 := by
  induction es generalizing s with
  | nil => exact hi
  | cons e es ih =>
    apply ih
    cases e with
    | get t =>
      simp only [step]
      split
      · exact inv_get_step c v0 t s hi
      · exact hi
    | set t a =>
      simp only [step]
      split
      · exact inv_set_step c v0 t a s hi
      · exact hi

/-- C11. With every atomic exchange on the slot one step of `n` threads that
run `lean_st_ref_get` and `lean_st_ref_set` on one multithread or persistent
cell that starts non-empty: in every state a schedule reaches, the cell is
still on the slow path, no completed get has returned null, and every value a
get has returned is the initial occupant or was passed to some set. -/
theorem concurrent_get_never_empty (n : Nat) (c : Addr) (h0 : Heap) (v0 : object_ptr)
    (es : List Event) (hc : ref_maybe_mt c h0 = true) (h0v : h0.m_value c = v0) :
    ref_maybe_mt c (run n c (System.init h0) es).heap = true ∧
    ∀ r ∈ (run n c (System.init h0) es).returned,
      r ≠ .nullptr ∧ (r = v0 ∨ r ∈ (run n c (System.init h0) es).stored) := by
  subst h0v
  have hi := inv_run n c _ es _ (inv_init c h0 hc)
  exact ⟨hi.cell_mt, hi.rets⟩

/-- Witness for C11: two threads on the multithread cell 0 that starts with
object 2. Thread 0 takes object 2 out, thread 1 sets object 3 in between, thread
0 swaps object 2 back over it and returns it; after a further set of object 3
a get by thread 1 returns object 3. -/
theorem concurrent_get_never_empty_witness :
    (run 2 0 (System.init (sample_heap .multithread (.heap 2)))
        [.get 0, .set 1 (.heap 3), .get 0, .set 0 (.heap 3), .get 1, .get 1]).returned
      = [.heap 3, .heap 2] ∧
    ref_maybe_mt 0 (run 2 0 (System.init (sample_heap .multithread (.heap 2)))
        [.get 0, .set 1 (.heap 3), .get 0, .set 0 (.heap 3), .get 1, .get 1]).heap = true ∧
    ∀ r ∈ (run 2 0 (System.init (sample_heap .multithread (.heap 2)))
        [.get 0, .set 1 (.heap 3), .get 0, .set 0 (.heap 3), .get 1, .get 1]).returned,
      r ≠ .nullptr ∧ (r = .heap 2 ∨
        r ∈ (run 2 0 (System.init (sample_heap .multithread (.heap 2)))
          [.get 0, .set 1 (.heap 3), .get 0, .set 0 (.heap 3), .get 1, .get 1]).stored) :=
  ⟨rfl, concurrent_get_never_empty 2 0 (sample_heap .multithread (.heap 2)) (.heap 2)
    [.get 0, .set 1 (.heap 3), .get 0, .set 0 (.heap 3), .get 1, .get 1] rfl rfl⟩

/-! ## Tasks -/

/-- C12, as stated, fails: of the tasks 4 (waiting) and 5 (finished, with
object 2 as its result) `lean_io_wait_any_core` selects task 5, and
`lean_io_wait_any` returns ok carrying object 2, the result of that task, not
the task 5 itself. -/
theorem wait_any_counterexample :
    lean_io_wait_any_core sample_tasks [4, 5] = some 5 ∧
    lean_io_wait_any sample_tasks [4, 5] (sample_heap .exclusive .nullptr)
      = some (.ok (.heap 2), inc (.heap 2) (sample_heap .exclusive .nullptr)) ∧
    io_result.ok (.heap 2) ≠ io_result.ok (.heap 5) :=
  ⟨rfl, rfl, by decide⟩

/-- C12, amended. `lean_io_wait_any(tasks)` returns, wrapped in an ok result,
the result object (`lean_task_get`) of the task that
`lean_io_wait_any_core(tasks)` selected, after adding one reference to that
object; it does not return the task. -/
theorem wait_any_returns_value (ts : Tasks) (task_list : List Addr) (h : Heap) (t : Addr)
    (v : object_ptr) (hsel : lean_io_wait_any_core ts task_list = some t)
    (hget : lean_task_get ts t = some v) :
    lean_io_wait_any ts task_list h = some (.ok v, inc v h) := by
  simp [lean_io_wait_any, hsel, hget, io_result_mk_ok]

/-- Witness for the amended C12. -/
theorem wait_any_returns_value_witness :
    lean_io_wait_any_core sample_tasks [4, 5] = some 5 ∧
    lean_task_get sample_tasks 5 = some (.heap 2) ∧
    lean_io_wait_any sample_tasks [4, 5] (sample_heap .exclusive .nullptr)
      = some (.ok (.heap 2), inc (.heap 2) (sample_heap .exclusive .nullptr)) :=
  ⟨rfl, rfl, wait_any_returns_value sample_tasks [4, 5] (sample_heap .exclusive .nullptr) 5
    (.heap 2) rfl rfl⟩

/-- C13, as stated, fails: task 6 ended cancelled, and `lean_io_wait` on it
returns an ok result, the same kind of outcome as for the finished task 5. -/
theorem wait_cancelled_counterexample :
    sample_tasks.state 6 = .cancelled ∧
    lean_io_wait sample_tasks 6 = some (.ok .nullptr) ∧
    sample_tasks.state 5 = .finished ∧
    lean_io_wait sample_tasks 5 = some (.ok (.heap 2)) :=
  ⟨rfl, rfl, rfl, rfl⟩

/-- C13, amended. `lean_io_wait(t)` has no cancellation outcome: on a task that
ended cancelled, as on one that finished, it returns an ok result carrying what
`lean_task_get_own(t)` yields, and whatever it returns is an ok result, never
an error result. -/
theorem wait_always_ok (ts : Tasks) (t : Addr)
    (hr : ts.state t = .cancelled ∨ ts.state t = .finished) :
    lean_io_wait ts t = some (.ok (ts.m_value t)) ∧
    ∀ ts2 : Tasks, ∀ t2 r, lean_io_wait ts2 t2 = some r → ∃ v, r = .ok v := by
  constructor
  · have hres : ts.resolved t = true := by
      rcases hr with e | e <;> simp [Tasks.resolved, e]
    simp [lean_io_wait, lean_task_get_own, lean_task_get, hres, io_result_mk_ok]
  · intro ts2 t2 r e
    unfold lean_io_wait at e
    split at e
    · rename_i v _
      exact ⟨v, by simpa [io_result_mk_ok] using e.symm⟩
    · cases e

/-- Witness for the amended C13, on the cancelled task 6. -/
theorem wait_always_ok_witness :
    sample_tasks.state 6 = .cancelled ∧
    lean_io_wait sample_tasks 6 = some (.ok (sample_tasks.m_value 6)) :=
  ⟨rfl, (wait_always_ok sample_tasks 6 (Or.inl rfl)).1⟩

/-! ## Slow-path get against an environment -/

/-- C14, as stated, fails: the first exchange yields object 2, the swap-back
exchange yields object 3 (the slot was refilled by another thread). The call
releases object 3 and returns ok(object 2) in that same round: the two entries
the environment still offers are left unused. -/
theorem get_env_counterexample :
    ∃ h1, lean_st_ref_get_env 0 [.heap 2, .heap 3, .heap 2, .nullptr]
        (sample_heap .multithread (.heap 2))
      = .ret (.ok (.heap 2), h1, [.heap 2, .nullptr]) ∧
      h1.rc 3 = (sample_heap .multithread (.heap 2)).rc 3 - 1 :=
  ⟨_, rfl, rfl⟩

/-- C14, amended. With the result of each exchange supplied by the
environment: when the first exchange yields a non-empty `val` and the swap-back
exchange finds the slot non-empty (displaced value `tmp`), the slow path of
`lean_st_ref_get` releases `tmp` (one decrement) and returns ok(`val`) in that
same round, using no further exchange. It goes round the loop again only when
the first exchange yields null. -/
theorem get_env_swap_back (ref : Addr) (val tmp : object_ptr) (env : List object_ptr)
    (h : Heap) (hv : val ≠ .nullptr) (ht : tmp ≠ .nullptr) :
    lean_st_ref_get_env ref (val :: tmp :: env) h
      = .ret (.ok val,
          dec tmp (store_m_value ref val (inc val (store_m_value ref .nullptr h))), env) ∧
    lean_st_ref_get_env ref (.nullptr :: env) h
      = lean_st_ref_get_env ref env (store_m_value ref .nullptr h) := by
  constructor
  · simp [lean_st_ref_get_env, hv, ht, io_result_mk_ok]
  · simp [lean_st_ref_get_env]

/-- Witness for the amended C14. -/
theorem get_env_swap_back_witness :
    lean_st_ref_get_env 0 [.heap 2, .heap 3, .heap 2, .nullptr]
        (sample_heap .multithread (.heap 2))
      = .ret (.ok (.heap 2),
          dec (.heap 3) (store_m_value 0 (.heap 2) (inc (.heap 2)
            (store_m_value 0 .nullptr (sample_heap .multithread (.heap 2))))),
          [.heap 2, .nullptr]) :=
  (get_env_swap_back 0 (.heap 2) (.heap 3) [.heap 2, .nullptr]
    (sample_heap .multithread (.heap 2)) (by decide) (by decide)).1

/-! ## Reading a line -/

/-- What `fgets_chunk` does at the start of a line that a newline ends. -/
theorem fgets_chunk_line (n : Nat) (l rest : List Nat) (hl : ∀ b ∈ l, b ≠ 10) :
    fgets_chunk n (l ++ 10 :: rest) =
      if l.length < n then (l ++ [10], rest) else (l.take n, l.drop n ++ 10 :: rest) := by
  induction n generalizing l with
  | zero => simp [fgets_chunk]
  | succ n ih =>
    cases l with
    | nil => simp [fgets_chunk]
    | cons b l =>
      have hb : b ≠ 10 := hl b (by simp)
      have hl2 : ∀ x ∈ l, x ≠ 10 := fun x hx => hl x (by simp [hx])
      have e := ih l hl2
      simp only [List.cons_append, fgets_chunk, hb, if_false]
      by_cases h : l.length < n
      · rw [if_pos h] at e
        simp [h, e]
      · rw [if_neg h] at e
        simp [h, e]

/-- What `fgets` with a buffer of 64 bytes does at the start of a line that a
newline ends. -/
theorem fgets_line (l rest : List Nat) (e : Bool) (hl : ∀ b ∈ l, b ≠ 10) :
    fgets 64 ⟨l ++ 10 :: rest, e, false⟩ =
      if l.length < 63 then (some (l ++ [10] ++ [0]), ⟨rest, e, false⟩)
      else (some (l.take 63 ++ [0]), ⟨l.drop 63 ++ 10 :: rest, e, false⟩) := by
  unfold fgets
  simp only [Bool.false_eq_true, if_false, List.append_eq_nil, false_and, reduceCtorEq,
    Nat.add_one_sub_one, fgets_chunk_line 63 l rest hl]
  by_cases h : l.length < 63
  · simp [h]
  · have h2 : 63 ≤ l.length := Nat.le_of_not_lt h
    simp [h, List.length_take, Nat.min_eq_left h2]

/-- The zero byte `fgets` appends is where the C string ends at the latest. -/
theorem c_str_append_zero (x : List Nat) : c_str (x ++ [0]) = c_str x := by
  unfold c_str
  induction x with
  | nil => simp
  | cons b x ih =>
    by_cases hb : b = 0
    · simp [hb]
    · simp only [List.cons_append, List.takeWhile_cons, hb, ne_eq, not_false_eq_true,
        decide_True, if_true, ih]

theorem c_str_of_no_zero (x : List Nat) (hx : ∀ b ∈ x, b ≠ 0) : c_str x = x := by
  unfold c_str
  rw [List.takeWhile_eq_self_iff]
  intro b hb
  simpa using hx b hb

theorem strlen_eq (x : List Nat) : strlen x = (c_str x).length := rfl

theorem c_str_length_le (x : List Nat) : (c_str x).length ≤ x.length := by
  unfold c_str
  exact (List.takeWhile_sublist _).length_le

/-- The round of the loop that reads the end of a line: the line read so far
and the rest of it up to the zero byte, if any, are returned, and the stream is
past the newline. -/
theorem get_line_loop_last_chunk (l rest result : List Nat) (first e : Bool) (fuel : Nat)
    (hl : ∀ b ∈ l, b ≠ 10) (hlen : l.length < 63) (hfirst : first = true → result = []) :
    lean_io_prim_handle_get_line_loop (fuel + 1) ⟨l ++ 10 :: rest, e, false⟩ result first
      = .ret (.ok (result ++ c_str (l ++ [10])), ⟨rest, e, false⟩) := by
  have hf := fgets_line l rest e hl
  rw [if_pos hlen] at hf
  have hcond : strlen (l ++ [10] ++ [0]) < 64 - 1 ∨
      (l ++ [10] ++ [0]).getD (64 - 2) 0 = 10 := by
    by_cases h62 : l.length = 62
    · right
      have hget : (l ++ [10] ++ [0])[64 - 2]? = some 10 := by
        rw [List.append_assoc, List.getElem?_append_right (by omega)]
        simp [h62]
      rw [List.getD_eq_getElem?_getD, hget]
      rfl
    · left
      rw [strlen_eq, c_str_append_zero]
      have := c_str_length_le (l ++ [10])
      simp only [List.length_append, List.length_singleton] at this
      omega
  simp only [lean_io_prim_handle_get_line_loop, hf]
  rw [if_pos hcond, c_str_append_zero]
  cases first with
  | true => simp [hfirst rfl]
  | false => simp

/-- A line that fits one chunk (at most 63 bytes with its newline), with or
without a zero byte: the call returns it cut at the first zero byte and the
stream is past its newline. -/
theorem get_line_short_line (l rest : List Nat) (e : Bool) (hl : ∀ b ∈ l, b ≠ 10)
    (hlen : l.length < 63) :
    lean_io_prim_handle_get_line ⟨l ++ 10 :: rest, e, false⟩
      = .ret (.ok (c_str (l ++ [10])), ⟨rest, e, false⟩) := by
  unfold lean_io_prim_handle_get_line
  rw [get_line_loop_last_chunk l rest [] true e _ hl hlen (fun _ => rfl)]
  simp

/-- The loop on a line without a zero byte, of any length. -/
theorem get_line_loop_whole_line (k : Nat) :
    ∀ (l rest result : List Nat) (first e : Bool) (fuel : Nat),
      l.length ≤ k → (∀ b ∈ l, b ≠ 10) → (∀ b ∈ l, b ≠ 0) → l.length < fuel →
      (first = true → result = []) →
      lean_io_prim_handle_get_line_loop fuel ⟨l ++ 10 :: rest, e, false⟩ result first
        = .ret (.ok (result ++ l ++ [10]), ⟨rest, e, false⟩) := by
  induction k with
  | zero =>
    intro l rest result first e fuel hk hl hz hfuel hfirst
    obtain ⟨f, rfl⟩ : ∃ f, fuel = f + 1 := ⟨fuel - 1, by omega⟩
    rw [get_line_loop_last_chunk l rest result first e f hl (by omega) hfirst,
      c_str_of_no_zero, List.append_assoc]
    intro b hb
    rcases List.mem_append.1 hb with h | h
    · exact hz b h
    · simp at h; omega
  | succ k ih =>
    intro l rest result first e fuel hk hl hz hfuel hfirst
    obtain ⟨f, rfl⟩ : ∃ f, fuel = f + 1 := ⟨fuel - 1, by omega⟩
    by_cases hlen : l.length < 63
    · rw [get_line_loop_last_chunk l rest result first e f hl hlen hfirst,
        c_str_of_no_zero, List.append_assoc]
      intro b hb
      rcases List.mem_append.1 hb with h | h
      · exact hz b h
      · simp at h; omega
    · have h63 : 63 ≤ l.length := Nat.le_of_not_lt hlen
      have hf := fgets_line l rest e hl
      rw [if_neg hlen] at hf
      have htz : ∀ b ∈ l.take 63, b ≠ 0 := fun b hb => hz b (List.mem_of_mem_take hb)
      have hcs : c_str (l.take 63 ++ [0]) = l.take 63 := by
        rw [c_str_append_zero, c_str_of_no_zero _ htz]
      have hlt : (l.take 63).length = 63 := by
        rw [List.length_take]; omega
      have hcond : ¬ (strlen (l.take 63 ++ [0]) < 64 - 1 ∨
          (l.take 63 ++ [0]).getD (64 - 2) 0 = 10) := by
        rw [strlen_eq, hcs, hlt]
        intro h
        rcases h with h | h
        · omega
        · have h62 : 62 < l.length := by omega
          have hget : (l.take 63 ++ [0]).getD (64 - 2) 0 = l[62] := by
            have h2 : (l.take 63 ++ [0])[64 - 2]? = some l[62] := by
              rw [List.getElem?_append_left (by omega), List.getElem?_take_of_lt (by omega),
                List.getElem?_eq_getElem h62]
            rw [List.getD_eq_getElem?_getD, h2]
            rfl
          rw [hget] at h
          exact hl _ (List.getElem_mem h62) h
      simp only [lean_io_prim_handle_get_line_loop, hf]
      rw [if_neg hcond, hcs]
      rw [ih (l.drop 63) rest (result ++ l.take 63) false e f
        (by rw [List.length_drop]; omega)
        (fun b hb => hl b (List.mem_of_mem_drop hb))
        (fun b hb => hz b (List.mem_of_mem_drop hb))
        (by rw [List.length_drop]; omega)
        (fun h => by cases h)]
      rw [List.append_assoc result, List.take_append_drop]

/-- A line without a zero byte, of any length, that a newline ends: the call
returns the whole line with its newline and the stream is past it. -/
theorem get_line_whole_line (l rest : List Nat) (e : Bool) (hl : ∀ b ∈ l, b ≠ 10)
    (hz : ∀ b ∈ l, b ≠ 0) :
    lean_io_prim_handle_get_line ⟨l ++ 10 :: rest, e, false⟩
      = .ret (.ok (l ++ [10]), ⟨rest, e, false⟩) := by
  unfold lean_io_prim_handle_get_line
  rw [get_line_loop_whole_line l.length l rest [] true e _ (Nat.le_refl _) hl hz
    (by simp only [List.length_append, List.length_cons]; omega) (fun _ => rfl)]
  simp

/-- What `fgets_chunk` does on input that holds no newline. -/
theorem fgets_chunk_no_newline (n : Nat) (l : List Nat) (hl : ∀ b ∈ l, b ≠ 10) :
    fgets_chunk n l = (l.take n, l.drop n) := by
  induction n generalizing l with
  | zero => simp [fgets_chunk]
  | succ n ih =>
    cases l with
    | nil => simp [fgets_chunk]
    | cons b l =>
      have hb : b ≠ 10 := hl b (by simp)
      have hl2 : ∀ x ∈ l, x ≠ 10 := fun x hx => hl x (by simp [hx])
      simp [fgets_chunk, hb, ih l hl2]

/-- The loop on the last line of the input when no newline ends it and it has
no zero byte. -/
theorem get_line_loop_last_line (k : Nat) :
    ∀ (l result : List Nat) (first e : Bool) (fuel : Nat),
      l.length ≤ k → (∀ b ∈ l, b ≠ 10) → (∀ b ∈ l, b ≠ 0) → l.length < fuel →
      (first = true → result = []) →
      ∃ e2, lean_io_prim_handle_get_line_loop fuel ⟨l, e, false⟩ result first
        = .ret (.ok (result ++ l), ⟨[], e2, false⟩) := by
  induction k with
  | zero =>
    intro l result first e fuel hk hl hz hfuel hfirst
    obtain ⟨f, rfl⟩ : ∃ f, fuel = f + 1 := ⟨fuel - 1, by omega⟩
    have hnil : l = [] := List.length_eq_zero.1 (by omega)
    subst hnil
    exact ⟨false, by simp [lean_io_prim_handle_get_line_loop, fgets, clearerr]⟩
  | succ k ih =>
    intro l result first e fuel hk hl hz hfuel hfirst
    obtain ⟨f, rfl⟩ : ∃ f, fuel = f + 1 := ⟨fuel - 1, by omega⟩
    by_cases hnil : l = []
    · subst hnil
      exact ⟨false, by simp [lean_io_prim_handle_get_line_loop, fgets, clearerr]⟩
    have hf : fgets 64 ⟨l, e, false⟩ = (some (l.take 63 ++ [0]),
        ⟨l.drop 63, e || (decide (l.drop 63 = []) && decide ((l.take 63).getLast? ≠ some 10)
          && decide ((l.take 63).length < 64 - 1)), false⟩) := by
      simp [fgets, hnil, fgets_chunk_no_newline 63 l hl]
    have htz : ∀ b ∈ l.take 63, b ≠ 0 := fun b hb => hz b (List.mem_of_mem_take hb)
    have hcs : c_str (l.take 63 ++ [0]) = l.take 63 := by
      rw [c_str_append_zero, c_str_of_no_zero _ htz]
    by_cases hlen : l.length < 63
    · have ht : l.take 63 = l := List.take_of_length_le (by omega)
      have hd : l.drop 63 = [] := List.drop_of_length_le (by omega)
      have hcond : strlen (l.take 63 ++ [0]) < 64 - 1 ∨
          (l.take 63 ++ [0]).getD (64 - 2) 0 = 10 := by
        left
        rw [strlen_eq, hcs, ht]
        omega
      refine ⟨e || (decide (l.drop 63 = []) && decide ((l.take 63).getLast? ≠ some 10)
          && decide ((l.take 63).length < 64 - 1)), ?_⟩
      simp only [lean_io_prim_handle_get_line_loop, hf]
      rw [if_pos hcond, hcs]
      simp only [ht, hd]
      cases first with
      | true => simp [hfirst rfl]
      | false => simp
    · have hlt : (l.take 63).length = 63 := by
        rw [List.length_take]; omega
      have hcond : ¬ (strlen (l.take 63 ++ [0]) < 64 - 1 ∨
          (l.take 63 ++ [0]).getD (64 - 2) 0 = 10) := by
        rw [strlen_eq, hcs, hlt]
        intro h
        rcases h with h | h
        · omega
        · have h62 : 62 < l.length := by omega
          have hget : (l.take 63 ++ [0]).getD (64 - 2) 0 = l[62] := by
            have h2 : (l.take 63 ++ [0])[64 - 2]? = some l[62] := by
              rw [List.getElem?_append_left (by omega), List.getElem?_take_of_lt (by omega),
                List.getElem?_eq_getElem h62]
            rw [List.getD_eq_getElem?_getD, h2]
            rfl
          rw [hget] at h
          exact hl _ (List.getElem_mem h62) h
      obtain ⟨e2, he2⟩ := ih (l.drop 63) (result ++ l.take 63) false
        (e || (decide (l.drop 63 = []) && decide ((l.take 63).getLast? ≠ some 10)
          && decide ((l.take 63).length < 64 - 1))) f
        (by rw [List.length_drop]; omega)
        (fun b hb => hl b (List.mem_of_mem_drop hb))
        (fun b hb => hz b (List.mem_of_mem_drop hb))
        (by rw [List.length_drop]; omega)
        (fun h => by cases h)
      refine ⟨e2, ?_⟩
      simp only [lean_io_prim_handle_get_line_loop, hf]
      rw [if_neg hcond, hcs, he2, List.append_assoc result, List.take_append_drop]

/-- A last line without a zero byte that the end of the input ends: the call
returns all of it and the stream is at its end. -/
theorem get_line_last_line (l : List Nat) (e : Bool) (hl : ∀ b ∈ l, b ≠ 10)
    (hz : ∀ b ∈ l, b ≠ 0) :
    ∃ e2, lean_io_prim_handle_get_line ⟨l, e, false⟩ = .ret (.ok l, ⟨[], e2, false⟩) := by
  obtain ⟨e2, h⟩ := get_line_loop_last_line l.length l [] true e (l.length + 1)
    (Nat.le_refl _) hl hz (by omega) (fun _ => rfl)
  exact ⟨e2, by simpa [lean_io_prim_handle_get_line] using h⟩

/-- C15. Run of `lean_io_prim_handle_get_line` on a line of 71 bytes whose
second byte is zero: the call returns the line cut at the zero byte, but it has
read only the first 63 bytes, so the stream is not past the newline of that
line, and the next call returns the last 8 bytes of the same line instead of
the line that follows. -/
theorem get_line_long_line_not_discarded :
    lean_io_prim_handle_get_line sample_stream
      = .ret (.ok [97], ⟨List.replicate 7 98 ++ [10, 99, 10], false, false⟩) ∧
    lean_io_prim_handle_get_line ⟨List.replicate 7 98 ++ [10, 99, 10], false, false⟩
      = .ret (.ok (List.replicate 7 98 ++ [10]), ⟨[99, 10], false, false⟩) :=
  ⟨rfl, rfl⟩

end Runtime
